import Mathlib

/-!
Verification of the `trove-classifiers` source regenerator (`src/build.py`).

The script streams `lib.rs` line by line into a staging file `.lib.rs`:
a line starting with `pub const PYPA_VERSION` is replaced by a freshly
formatted version-constant line; on the exact line `pub enum Classifier {`
the old block is discarded up to and including the first `}` line and two
lines are emitted per classifier (a strum serialize annotation line and a
declaration line with a sanitized member name); at the end the staging file
is copied over `lib.rs`.

Lines are modelled as `List Char` (each carrying its trailing newline).
Python `str.replace` is modelled for the pattern arities the script uses
(one- and two-character patterns) as leftmost, non-overlapping rewriting.
-/

/-- The space character (code 32). -/
def spc : Char := Char.ofNat 32

/-- The apostrophe character (code 39). -/
def apo : Char := Char.ofNat 39

/-- Python `s.replace(p, rep)` for a one-character pattern `p`:
every occurrence of `p` is replaced by `rep`. -/
def replOne (p : Char) (rep : List Char) : List Char → List Char
  | [] => []
  | x :: xs => if x == p then rep ++ replOne p rep xs else x :: replOne p rep xs

/-- Python `s.replace(pq, rep)` for a two-character pattern `p,q`:
leftmost non-overlapping occurrences of `p` followed by `q` are replaced
by `rep`. -/
def replTwo (p q : Char) (rep : List Char) : List Char → List Char
  | [] => []
  | [x] => [x]
  | x :: y :: xs =>
    if x == p && y == q then rep ++ replTwo p q rep xs
    else x :: replTwo p q rep (y :: xs)

/-- The sanitization chain of `build.py` (`member_name = classifier.replace...`),
applied in the source's order: `::`→`__`, `.`→`_`, then removal of space,
`(`, `)`, `/`, `-`, apostrophe, then `#`→`sharp` and `+`→`plus`. -/
def member_name (classifier : List Char) : List Char :=
  replOne '+' ("plus".toList)
    (replOne '#' ("sharp".toList)
      (replOne apo []
        (replOne '-' []
          (replOne '/' []
            (replOne ')' []
              (replOne '(' []
                (replOne spc []
                  (replOne '.' ['_']
                    (replTwo ':' ':' ['_', '_'] classifier)))))))))

/-- The marker that identifies the version-constant line
(`line.startswith("pub const PYPA_VERSION")`). -/
def verMarker : List Char := "pub const PYPA_VERSION".toList

/-- The exact opening marker line of the enumeration block. -/
def openMarker : List Char := "pub enum Classifier \x7b\n".toList

/-- The exact closing marker line of the enumeration block. -/
def closeMarker : List Char := "\x7d\n".toList

/-- The freshly formatted version line
(`f'pub const PYPA_VERSION: &str = "{trove_version}";\n'`). -/
def versionLine (v : List Char) : List Char :=
  "pub const PYPA_VERSION: &str = \"".toList ++ (v ++ "\";\n".toList)

/-- The fixed text before the quoted classifier in an annotation line. -/
def annPre : List Char := "    #[strum(serialize = \"".toList

/-- The fixed text after the quoted classifier in an annotation line. -/
def annSuf : List Char := "\")]\n".toList

/-- The serialization-annotation line
(`f'    #[strum(serialize = "{classifier}")]\n'`). -/
def annotLine (c : List Char) : List Char :=
  annPre ++ (c ++ annSuf)

/-- The member declaration line (`f"    {member_name},\n"`). -/
def memberLine (c : List Char) : List Char :=
  "    ".toList ++ (member_name c ++ ",\n".toList)

/-- `lpre p l` decides whether `p` is a prefix of `l`
(Python `l.startswith(p)`). -/
def lpre : List Char → List Char → Bool
  | [], _ => true
  | _ :: _, [] => false
  | p :: ps, x :: xs => p == x && lpre ps xs

/-- The two lines written per classifier by the `for classifier in
trove_classifiers.sorted_classifiers` loop, in loop order. -/
def entries : List (List Char) → List (List Char)
  | [] => []
  | c :: cs => annotLine c :: memberLine c :: entries cs

/-- One pass of the rewrite loop of `build.py` over the remaining input
lines. The `Bool` is `true` while the inner
`while (line := next(lib_rs)) != "}\n"` loop is discarding the old block
body; reaching end of input in that mode is the uncaught `StopIteration`
(`none`). -/
def trAux (v : List Char) (cs : List (List Char)) :
    List (List Char) → Bool → Option (List (List Char))
  | [], false => some []
  | [], true => none
  | line :: rest, true =>
    if line = closeMarker then
      match trAux v cs rest false with
      | none => none
      | some out => some (entries cs ++ closeMarker :: out)
    else trAux v cs rest true
  | line :: rest, false =>
    let line1 := if lpre verMarker line then versionLine v else line
    if line1 = openMarker then
      match trAux v cs rest true with
      | none => none
      | some out => some (line1 :: out)
    else
      match trAux v cs rest false with
      | none => none
      | some out => some (line1 :: out)

/-- The whole transformation: the staging file's lines, or `none` when the
run aborts with the uncaught iteration-exhaustion failure
(`MalformedTemplate`). -/
def transform (v : List Char) (cs : List (List Char))
    (lines : List (List Char)) : Option (List (List Char)) :=
  trAux v cs lines false

/-- The input lines lying outside the two rewritten regions: neither
version-marker lines, nor the opening marker, nor lines of the discarded
block body (closing marker included).  The `Bool` is the same
inside-the-block mode as in `trAux`. -/
def outsideAux : List (List Char) → Bool → List (List Char)
  | [], _ => []
  | line :: rest, true =>
    if line = closeMarker then outsideAux rest false else outsideAux rest true
  | line :: rest, false =>
    if lpre verMarker line then outsideAux rest false
    else if line = openMarker then outsideAux rest true
    else line :: outsideAux rest false

/-- The lines of an artifact outside the Version Line and the
Enumeration Block. -/
def outsideLines (lines : List (List Char)) : List (List Char) :=
  outsideAux lines false

/-- `lsuf s l` decides whether `s` is a suffix of `l`. -/
def lsuf (s l : List Char) : Bool :=
  lpre s.reverse l.reverse

/-- Reads the quoted serialization value back out of an annotation line:
strips the fixed text before the opening quote and the fixed text from the
closing quote on. -/
def quotedValue (l : List Char) : Option (List Char) :=
  if lpre annPre l then
    let r := l.drop annPre.length
    if lsuf annSuf r then some (r.take (r.length - annSuf.length)) else none
  else none

/-- Whether a string has two consecutive colon characters (an occurrence
of the two-character pattern `::`). -/
def hasDD : List Char → Bool
  | [] => false
  | [_] => false
  | x :: y :: xs => (x == ':' && y == ':') || hasDD (y :: xs)

/-- The failure condition of the run: some occurrence of the opening
marker line is not followed, before end of input, by a closing marker
line. -/
def unterminatedOpen (lines : List (List Char)) : Prop :=
  ∃ pre rest, lines = pre ++ openMarker :: rest ∧ closeMarker ∉ rest

/-- A filesystem effect of the run: a write appending one line to the
staging file `.lib.rs`, or the final `shutil.copy(".lib.rs", "lib.rs")`. -/
inductive Eff where
  | writeStaging : List Char → Eff
  | commit : Eff

/-- The two files the run touches. -/
structure FS where
  libRs : List (List Char)
  staging : List (List Char)

/-- Applying one effect to the filesystem. -/
def applyAct (fs : FS) : Eff → FS
  | Eff.writeStaging l => { fs with staging := fs.staging ++ [l] }
  | Eff.commit => { fs with libRs := fs.staging }

/-- The sequence of staging writes the rewrite loop performs on the
remaining input, paired with whether the loop ran to completion (`false`
when the inner skip loop exhausted the input). -/
def runAux (v : List Char) (cs : List (List Char)) :
    List (List Char) → Bool → List Eff × Bool
  | [], false => ([], true)
  | [], true => ([], false)
  | line :: rest, true =>
    if line = closeMarker then
      let r := runAux v cs rest false
      ((entries cs).map Eff.writeStaging ++
        Eff.writeStaging closeMarker :: r.1, r.2)
    else runAux v cs rest true
  | line :: rest, false =>
    let line1 := if lpre verMarker line then versionLine v else line
    if line1 = openMarker then
      let r := runAux v cs rest true
      (Eff.writeStaging line1 :: r.1, r.2)
    else
      let r := runAux v cs rest false
      (Eff.writeStaging line1 :: r.1, r.2)

/-- One whole run of the script against a filesystem: the staging file is
opened for writing (truncated), the loop's writes are applied, and the
copy over `lib.rs` happens only when the loop completed. -/
def run (v : List Char) (cs : List (List Char)) (fs : FS) : FS :=
  let r := runAux v cs fs.libRs false
  let acts := if r.2 then r.1 ++ [Eff.commit] else r.1
  acts.foldl applyAct { fs with staging := [] }

/-! ### Helper lemmas: line shapes -/

theorem head_ne {a b : Char} (l m : List Char) (h : a ≠ b) : a :: l ≠ b :: m := by
  intro e
  injection e with h1 _
  exact h h1

theorem tail_ne (a : Char) {l m : List Char} (h : l ≠ m) : a :: l ≠ a :: m := by
  intro e
  injection e with _ h2
  exact h h2

theorem verMarker_expand : verMarker = 'p' :: "ub const PYPA_VERSION".toList := rfl

theorem openMarker_expand :
    openMarker = 'p' :: 'u' :: 'b' :: spc :: 'e' :: "num Classifier \x7b\n".toList := rfl

theorem closeMarker_expand : closeMarker = Char.ofNat 125 :: ['\n'] := rfl

theorem versionLine_expand (v : List Char) :
    versionLine v = 'p' :: 'u' :: 'b' :: spc :: 'c' ::
      ("onst PYPA_VERSION: &str = \"".toList ++ (v ++ "\";\n".toList)) := rfl

theorem versionLine_split (v : List Char) :
    versionLine v = verMarker ++ (": &str = \"".toList ++ (v ++ "\";\n".toList)) := rfl

theorem annotLine_expand (c : List Char) :
    annotLine c = spc :: ("   #[strum(serialize = \"".toList ++ (c ++ annSuf)) := rfl

theorem memberLine_expand (c : List Char) :
    memberLine c = spc :: ("   ".toList ++ (member_name c ++ ",\n".toList)) := rfl

theorem lpre_append (p t : List Char) : lpre p (p ++ t) = true := by
  induction p with
  | nil => rfl
  | cons x xs ih => simp [lpre, ih]

theorem lpre_false_of_head {p x : Char} (ps xs : List Char) (h : (p == x) = false) :
    lpre (p :: ps) (x :: xs) = false := by
  show (p == x && lpre ps xs) = false
  rw [h, Bool.false_and]

theorem lpre_verMarker_versionLine (v : List Char) :
    lpre verMarker (versionLine v) = true := by
  rw [versionLine_split]
  exact lpre_append _ _

theorem lpre_verMarker_annotLine (c : List Char) :
    lpre verMarker (annotLine c) = false := by
  rw [verMarker_expand, annotLine_expand]
  exact lpre_false_of_head _ _ (by decide)

theorem lpre_verMarker_memberLine (c : List Char) :
    lpre verMarker (memberLine c) = false := by
  rw [verMarker_expand, memberLine_expand]
  exact lpre_false_of_head _ _ (by decide)

theorem lpre_verMarker_openMarker : lpre verMarker openMarker = false := by decide

theorem lpre_verMarker_closeMarker : lpre verMarker closeMarker = false := by decide

theorem versionLine_ne_openMarker (v : List Char) : versionLine v ≠ openMarker := by
  rw [versionLine_expand, openMarker_expand]
  exact tail_ne _ (tail_ne _ (tail_ne _ (tail_ne _ (head_ne _ _ (by decide)))))

theorem versionLine_ne_closeMarker (v : List Char) : versionLine v ≠ closeMarker := by
  rw [versionLine_expand, closeMarker_expand]
  exact head_ne _ _ (by decide)

theorem annotLine_ne_openMarker (c : List Char) : annotLine c ≠ openMarker := by
  rw [annotLine_expand, openMarker_expand]
  exact head_ne _ _ (by decide)

theorem annotLine_ne_closeMarker (c : List Char) : annotLine c ≠ closeMarker := by
  rw [annotLine_expand, closeMarker_expand]
  exact head_ne _ _ (by decide)

theorem memberLine_ne_openMarker (c : List Char) : memberLine c ≠ openMarker := by
  rw [memberLine_expand, openMarker_expand]
  exact head_ne _ _ (by decide)

theorem memberLine_ne_closeMarker (c : List Char) : memberLine c ≠ closeMarker := by
  rw [memberLine_expand, closeMarker_expand]
  exact head_ne _ _ (by decide)

theorem openMarker_ne_closeMarker : openMarker ≠ closeMarker := by decide

theorem lpre_iff_exists (p l : List Char) :
    lpre p l = true ↔ ∃ t, l = p ++ t := by
  induction p generalizing l with
  | nil => simp [lpre]
  | cons x xs ih =>
    match l with
    | [] =>
      simp [lpre]
    | y :: ys =>
      show (x == y && lpre xs ys) = true ↔ ∃ t, y :: ys = x :: xs ++ t
      rw [Bool.and_eq_true, beq_iff_eq, ih]
      constructor
      · rintro ⟨he, t, ht⟩
        subst he
        exact ⟨t, by rw [ht]; rfl⟩
      · rintro ⟨t, ht⟩
        injection ht with h1 h2
        exact ⟨h1.symm, t, h2⟩

/-- A line that starts with the version marker is not the opening marker
(the two fixed texts differ at their fifth character). -/
theorem ne_openMarker_of_lpre_verMarker {l : List Char}
    (h : lpre verMarker l = true) : l ≠ openMarker := by
  obtain ⟨t, ht⟩ := (lpre_iff_exists _ _).mp h
  subst ht
  rw [show verMarker ++ t =
        'p' :: 'u' :: 'b' :: spc :: 'c' :: ("onst PYPA_VERSION".toList ++ t)
      from rfl,
    openMarker_expand]
  exact tail_ne _ (tail_ne _ (tail_ne _ (tail_ne _ (head_ne _ _ (by decide)))))

/-! ### Helper lemmas: entries and the skipping mode -/

theorem entries_ne_closeMarker (cs : List (List Char)) :
    ∀ l ∈ entries cs, l ≠ closeMarker := by
  induction cs with
  | nil => intro l h; simp [entries] at h
  | cons c cs ih =>
    intro l h
    rcases List.mem_cons.mp h with h1 | h1
    · rw [h1]; exact annotLine_ne_closeMarker c
    · rcases List.mem_cons.mp h1 with h2 | h2
      · rw [h2]; exact memberLine_ne_closeMarker c
      · exact ih l h2

theorem entries_length (cs : List (List Char)) :
    (entries cs).length = 2 * cs.length := by
  induction cs with
  | nil => rfl
  | cons c cs ih => simp [entries, ih]; omega

theorem entries_get (cs : List (List Char)) :
    ∀ (i : Nat) (h : i < cs.length),
      (entries cs).get? (2 * i) = some (annotLine (cs.get ⟨i, h⟩)) ∧
      (entries cs).get? (2 * i + 1) = some (memberLine (cs.get ⟨i, h⟩)) := by
  induction cs with
  | nil => intro i h; exact absurd h (Nat.not_lt_zero i)
  | cons c cs ih =>
    intro i h
    match i with
    | 0 => exact ⟨rfl, rfl⟩
    | Nat.succ j =>
      have hj : j < cs.length := Nat.lt_of_succ_lt_succ h
      have e2 : 2 * (j + 1) = 2 * j + 1 + 1 := by omega
      rw [e2]
      exact ih j hj

theorem annotLine_mem_entries {c : List Char} {cs : List (List Char)}
    (h : c ∈ cs) : annotLine c ∈ entries cs := by
  induction cs with
  | nil => simp at h
  | cons d ds ih =>
    rcases List.mem_cons.mp h with h1 | h1
    · rw [h1]; exact List.mem_cons_self _ _
    · exact List.mem_cons_of_mem _ (List.mem_cons_of_mem _ (ih h1))

theorem trAux_skip (v : List Char) (cs : List (List Char))
    (xs ls : List (List Char)) (h : ∀ l ∈ xs, l ≠ closeMarker) :
    trAux v cs (xs ++ ls) true = trAux v cs ls true := by
  induction xs with
  | nil => rfl
  | cons x xs ih =>
    have hx : x ≠ closeMarker := h x (List.mem_cons_self x xs)
    have ih2 := ih (fun l hl => h l (List.mem_cons_of_mem x hl))
    rw [List.cons_append]
    show trAux v cs (x :: (xs ++ ls)) true = trAux v cs ls true
    simp only [trAux]
    rw [if_neg hx]
    exact ih2

theorem trAux_noClose (v : List Char) (cs : List (List Char))
    {A : List (List Char)} (h : closeMarker ∉ A) :
    trAux v cs A true = none := by
  induction A with
  | nil => rfl
  | cons x xs ih =>
    have hx : x ≠ closeMarker := fun e => h (e ▸ List.mem_cons_self x xs)
    have hxs : closeMarker ∉ xs := fun m => h (List.mem_cons_of_mem x m)
    simp only [trAux]
    rw [if_neg hx]
    exact ih hxs

theorem trAux_skipInv (v : List Char) (cs : List (List Char))
    {A o : List (List Char)} (h : trAux v cs A true = some o) :
    ∃ sk r2 o2, A = sk ++ closeMarker :: r2 ∧ closeMarker ∉ sk ∧
      trAux v cs r2 false = some o2 ∧ o = entries cs ++ closeMarker :: o2 := by
  induction A generalizing o with
  | nil => exact absurd h (by simp [trAux])
  | cons line rest ih =>
    by_cases hc : line = closeMarker
    · subst hc
      cases hr : trAux v cs rest false with
      | none => simp [trAux, hr] at h
      | some out =>
        simp [trAux, hr] at h
        exact ⟨[], rest, out, rfl, by simp, hr, h.symm⟩
    · simp only [trAux, if_neg hc] at h
      obtain ⟨sk, r2, o2, he, hn, ht, ho⟩ := ih h
      refine ⟨line :: sk, r2, o2, by rw [he]; rfl, ?_, ht, ho⟩
      intro hmem
      rcases List.mem_cons.mp hmem with e | e
      · exact hc e.symm
      · exact hn e

theorem first_split {A : List (List Char)} (h : closeMarker ∈ A) :
    ∃ sk r2, A = sk ++ closeMarker :: r2 ∧ closeMarker ∉ sk := by
  induction A with
  | nil => simp at h
  | cons x xs ih =>
    by_cases hx : x = closeMarker
    · exact ⟨[], xs, by rw [hx]; exact rfl, by simp⟩
    · have hmem : closeMarker ∈ xs := by
        rcases List.mem_cons.mp h with h1 | h1
        · exact absurd h1.symm hx
        · exact h1
      obtain ⟨sk, r2, he, hn⟩ := ih hmem
      refine ⟨x :: sk, r2, by rw [he]; rfl, ?_⟩
      intro hmem2
      rcases List.mem_cons.mp hmem2 with e | e
      · exact hx e.symm
      · exact hn e

/-! ### Helper lemmas: single steps of the rewrite loop -/

theorem trAux_cons_ver (v : List Char) (cs : List (List Char))
    (line : List Char) (rest : List (List Char))
    (h : lpre verMarker line = true) :
    trAux v cs (line :: rest) false =
      match trAux v cs rest false with
      | none => none
      | some out => some (versionLine v :: out) := by
  simp only [trAux, h, if_true]
  rw [if_neg (versionLine_ne_openMarker v)]

theorem trAux_cons_open (v : List Char) (cs : List (List Char))
    (rest : List (List Char)) :
    trAux v cs (openMarker :: rest) false =
      match trAux v cs rest true with
      | none => none
      | some out => some (openMarker :: out) := by
  simp only [trAux, lpre_verMarker_openMarker, Bool.false_eq_true, if_false]
  rw [if_pos trivial]

theorem trAux_cons_plain (v : List Char) (cs : List (List Char))
    (line : List Char) (rest : List (List Char))
    (h1 : lpre verMarker line = false) (h2 : line ≠ openMarker) :
    trAux v cs (line :: rest) false =
      match trAux v cs rest false with
      | none => none
      | some out => some (line :: out) := by
  simp only [trAux, h1, Bool.false_eq_true, if_false]
  rw [if_neg h2]

theorem trAux_cons_close (v : List Char) (cs : List (List Char))
    (rest : List (List Char)) :
    trAux v cs (closeMarker :: rest) true =
      match trAux v cs rest false with
      | none => none
      | some out => some (entries cs ++ closeMarker :: out) := by
  simp only [trAux]
  rw [if_pos trivial]

/-- The block rebuild equation: scanning plain lines `pre`, then the
opening marker, then a closing-marker-free discarded body `sk`, then the
closing marker, the loop emits `pre`, the opening marker, the generated
entries and the closing marker, followed by the rewrite of the remaining
lines. -/
theorem trans_block (v : List Char) (cs : List (List Char))
    {pre sk rest2 out : List (List Char)}
    (hpre : ∀ l ∈ pre, lpre verMarker l = false ∧ l ≠ openMarker)
    (hsk : closeMarker ∉ sk)
    (hr : trAux v cs rest2 false = some out) :
    trAux v cs (pre ++ openMarker :: (sk ++ closeMarker :: rest2)) false =
      some (pre ++ openMarker :: (entries cs ++ closeMarker :: out)) := by
  induction pre with
  | nil =>
    rw [List.nil_append, trAux_cons_open,
      trAux_skip v cs sk _ (fun l hl e => hsk (e ▸ hl)),
      trAux_cons_close, hr]
    exact rfl
  | cons p ps ih =>
    have hp := hpre p (List.mem_cons_self p ps)
    have ih2 := ih (fun l hl => hpre l (List.mem_cons_of_mem p hl))
    rw [List.cons_append, trAux_cons_plain v cs p _ hp.1 hp.2, ih2]
    exact rfl

/-- Lines outside the two regions survive into the output, in order. -/
theorem outside_sublist (v : List Char) (cs : List (List Char)) :
    ∀ (A : List (List Char)) (b : Bool) (B : List (List Char)),
      trAux v cs A b = some B → List.Sublist (outsideAux A b) B := by
  intro A
  induction A with
  | nil =>
    intro b B h
    cases b with
    | false =>
      simp only [trAux, Option.some.injEq] at h
      rw [← h]
      exact List.Sublist.refl _
    | true => exact absurd h (by simp [trAux])
  | cons line rest ih =>
    intro b B h
    cases b with
    | true =>
      by_cases hc : line = closeMarker
      · subst hc
        rw [trAux_cons_close] at h
        cases hr : trAux v cs rest false with
        | none => rw [hr] at h; exact absurd h (by simp)
        | some out =>
          rw [hr] at h
          simp only [Option.some.injEq] at h
          rw [← h]
          show List.Sublist (outsideAux (closeMarker :: rest) true) _
          have : outsideAux (closeMarker :: rest) true = outsideAux rest false := by
            simp [outsideAux]
          rw [this]
          exact ((ih false out hr).trans
            (List.sublist_cons_self closeMarker out)).trans
            (List.sublist_append_right (entries cs) _)
      · have he : trAux v cs (line :: rest) true = trAux v cs rest true := by
          simp only [trAux]
          rw [if_neg hc]
        rw [he] at h
        have ho : outsideAux (line :: rest) true = outsideAux rest true := by
          simp [outsideAux, hc]
        rw [ho]
        exact ih true B h
    | false =>
      cases hv : lpre verMarker line with
      | true =>
        rw [trAux_cons_ver v cs line rest hv] at h
        cases hr : trAux v cs rest false with
        | none => rw [hr] at h; exact absurd h (by simp)
        | some out =>
          rw [hr] at h
          simp only [Option.some.injEq] at h
          rw [← h]
          have ho : outsideAux (line :: rest) false = outsideAux rest false := by
            simp [outsideAux, hv]
          rw [ho]
          exact (ih false out hr).cons _
      | false =>
        by_cases hop : line = openMarker
        · subst hop
          rw [trAux_cons_open] at h
          cases hr : trAux v cs rest true with
          | none => rw [hr] at h; exact absurd h (by simp)
          | some out =>
            rw [hr] at h
            simp only [Option.some.injEq] at h
            rw [← h]
            have ho : outsideAux (openMarker :: rest) false = outsideAux rest true := by
              simp [outsideAux, lpre_verMarker_openMarker]
            rw [ho]
            exact (ih true out hr).cons _
        · rw [trAux_cons_plain v cs line rest hv hop] at h
          cases hr : trAux v cs rest false with
          | none => rw [hr] at h; exact absurd h (by simp)
          | some out =>
            rw [hr] at h
            simp only [Option.some.injEq] at h
            rw [← h]
            have ho : outsideAux (line :: rest) false =
                line :: outsideAux rest false := by
              simp [outsideAux, hv, hop]
            rw [ho]
            exact (ih false out hr).cons₂ _

/-! ### Helper lemmas: idempotence -/

theorem idem_aux (v : List Char) (cs : List (List Char)) :
    ∀ (n : Nat) (A B : List (List Char)), A.length ≤ n →
      trAux v cs A false = some B → trAux v cs B false = some B := by
  intro n
  induction n with
  | zero =>
    intro A B hlen h
    have hA : A = [] := List.eq_nil_of_length_eq_zero (Nat.le_zero.mp hlen)
    subst hA
    simp only [trAux, Option.some.injEq] at h
    rw [← h]
    rfl
  | succ n ih =>
    intro A B hlen h
    match A with
    | [] =>
      simp only [trAux, Option.some.injEq] at h
      rw [← h]
      rfl
    | line :: rest =>
      have hrest : rest.length ≤ n := by
        simp only [List.length_cons] at hlen
        omega
      cases hv : lpre verMarker line with
      | true =>
        rw [trAux_cons_ver v cs line rest hv] at h
        cases hr : trAux v cs rest false with
        | none => rw [hr] at h; exact Option.noConfusion h
        | some out =>
          rw [hr] at h
          simp only [Option.some.injEq] at h
          rw [← h,
            trAux_cons_ver v cs (versionLine v) out (lpre_verMarker_versionLine v),
            ih rest out hrest hr]
      | false =>
        by_cases hop : line = openMarker
        · subst hop
          rw [trAux_cons_open] at h
          cases hr : trAux v cs rest true with
          | none => rw [hr] at h; exact Option.noConfusion h
          | some o =>
            rw [hr] at h
            simp only [Option.some.injEq] at h
            obtain ⟨sk, r2, o2, he, hn, ht, ho⟩ := trAux_skipInv v cs hr
            have hr2 : r2.length ≤ n := by
              rw [he] at hrest
              simp only [List.length_append, List.length_cons] at hrest
              omega
            have hido := ih r2 o2 hr2 ht
            rw [← h, ho,
              trAux_cons_open,
              trAux_skip v cs (entries cs) _ (entries_ne_closeMarker cs),
              trAux_cons_close, hido]
        · rw [trAux_cons_plain v cs line rest hv hop] at h
          cases hr : trAux v cs rest false with
          | none => rw [hr] at h; exact Option.noConfusion h
          | some out =>
            rw [hr] at h
            simp only [Option.some.injEq] at h
            rw [← h, trAux_cons_plain v cs line out hv hop, ih rest out hrest hr]

/-! ### Helper lemmas: the failure condition -/

theorem unterminatedOpen_nil : ¬ unterminatedOpen [] := by
  rintro ⟨pre, rest, he, -⟩
  match pre, he with
  | [], he => exact List.noConfusion he
  | p :: ps, he => exact List.noConfusion he

theorem unterminatedOpen_cons (x : List Char) (A : List (List Char)) :
    unterminatedOpen (x :: A) ↔
      unterminatedOpen A ∨ (x = openMarker ∧ closeMarker ∉ A) := by
  constructor
  · rintro ⟨pre, rest, he, hn⟩
    match pre, he with
    | [], he =>
      injection he with h1 h2
      exact Or.inr ⟨h1, h2 ▸ hn⟩
    | p :: ps, he =>
      injection he with h1 h2
      exact Or.inl ⟨ps, rest, h2, hn⟩
  · rintro (⟨pre, rest, he, hn⟩ | ⟨hx, hn⟩)
    · exact ⟨x :: pre, rest, by rw [he]; rfl, hn⟩
    · exact ⟨[], A, by rw [hx]; rfl, hn⟩

theorem unterminatedOpen_skip {sk rest2 : List (List Char)}
    (h : closeMarker ∉ sk) :
    unterminatedOpen (sk ++ closeMarker :: rest2) ↔ unterminatedOpen rest2 := by
  induction sk with
  | nil =>
    rw [List.nil_append, unterminatedOpen_cons]
    constructor
    · rintro (h1 | ⟨he, -⟩)
      · exact h1
      · exact absurd he (fun e => openMarker_ne_closeMarker e.symm)
    · exact Or.inl
  | cons s sk ih =>
    have hsk : closeMarker ∉ sk := fun m => h (List.mem_cons_of_mem s m)
    have hcm : closeMarker ∈ sk ++ closeMarker :: rest2 :=
      List.mem_append_right sk (List.mem_cons_self _ _)
    rw [List.cons_append, unterminatedOpen_cons]
    constructor
    · rintro (h1 | ⟨-, hn⟩)
      · exact (ih hsk).mp h1
      · exact absurd hcm hn
    · intro h1
      exact Or.inl ((ih hsk).mpr h1)

/-- The loop fails exactly on inputs with an opening marker that no later
closing marker terminates. -/
theorem trans_none_iff (v : List Char) (cs : List (List Char)) :
    ∀ (n : Nat) (A : List (List Char)), A.length ≤ n →
      (trAux v cs A false = none ↔ unterminatedOpen A) := by
  intro n
  induction n with
  | zero =>
    intro A hlen
    have hA : A = [] := List.eq_nil_of_length_eq_zero (Nat.le_zero.mp hlen)
    subst hA
    constructor
    · intro h
      exact absurd h (by simp [trAux])
    · intro h
      exact absurd h unterminatedOpen_nil
  | succ n ih =>
    intro A hlen
    match A with
    | [] =>
      constructor
      · intro h
        exact absurd h (by simp [trAux])
      · intro h
        exact absurd h unterminatedOpen_nil
    | line :: rest =>
      have hrest : rest.length ≤ n := by
        simp only [List.length_cons] at hlen
        omega
      cases hv : lpre verMarker line with
      | true =>
        have hno : line ≠ openMarker := ne_openMarker_of_lpre_verMarker hv
        rw [trAux_cons_ver v cs line rest hv, unterminatedOpen_cons]
        cases hr : trAux v cs rest false with
        | none =>
          constructor
          · intro _
            exact Or.inl ((ih rest hrest).mp hr)
          · intro _
            rfl
        | some out =>
          constructor
          · intro h
            exact Option.noConfusion h
          · rintro (h1 | ⟨he, -⟩)
            · have h2 := (ih rest hrest).mpr h1
              rw [hr] at h2
              exact Option.noConfusion h2
            · exact absurd he hno
      | false =>
        by_cases hop : line = openMarker
        · subst hop
          rw [trAux_cons_open, unterminatedOpen_cons]
          by_cases hcm : closeMarker ∈ rest
          · obtain ⟨sk, r2, he, hn⟩ := first_split hcm
            subst he
            have hr2 : r2.length ≤ n := by
              simp only [List.length_append, List.length_cons] at hrest
              omega
            rw [trAux_skip v cs sk _ (fun l hl e => hn (e ▸ hl)),
              trAux_cons_close, unterminatedOpen_skip hn]
            cases hr : trAux v cs r2 false with
            | none =>
              constructor
              · intro _
                exact Or.inl ((ih r2 hr2).mp hr)
              · intro _
                rfl
            | some out =>
              constructor
              · intro h
                exact Option.noConfusion h
              · rintro (h1 | ⟨-, hn2⟩)
                · have h2 := (ih r2 hr2).mpr h1
                  rw [hr] at h2
                  exact Option.noConfusion h2
                · exact absurd
                    (List.mem_append_right sk (List.mem_cons_self _ _)) hn2
          · rw [trAux_noClose v cs hcm]
            constructor
            · intro _
              exact Or.inr ⟨rfl, hcm⟩
            · intro _
              rfl
        · rw [trAux_cons_plain v cs line rest hv hop, unterminatedOpen_cons]
          cases hr : trAux v cs rest false with
          | none =>
            constructor
            · intro _
              exact Or.inl ((ih rest hrest).mp hr)
            · intro _
              rfl
          | some out =>
            constructor
            · intro h
              exact Option.noConfusion h
            · rintro (h1 | ⟨he, -⟩)
              · have h2 := (ih rest hrest).mpr h1
                rw [hr] at h2
                exact Option.noConfusion h2
              · exact absurd he hop

/-! ### Helper lemmas: the run against the filesystem -/

theorem runAux_cons_close (v : List Char) (cs : List (List Char))
    (rest : List (List Char)) :
    runAux v cs (closeMarker :: rest) true =
      ((entries cs).map Eff.writeStaging ++
        Eff.writeStaging closeMarker :: (runAux v cs rest false).1,
       (runAux v cs rest false).2) := by
  simp only [runAux]
  rw [if_pos trivial]

theorem runAux_cons_skipped (v : List Char) (cs : List (List Char))
    (line : List Char) (rest : List (List Char)) (hc : line ≠ closeMarker) :
    runAux v cs (line :: rest) true = runAux v cs rest true := by
  simp only [runAux]
  rw [if_neg hc]

theorem runAux_cons_ver (v : List Char) (cs : List (List Char))
    (line : List Char) (rest : List (List Char))
    (h : lpre verMarker line = true) :
    runAux v cs (line :: rest) false =
      (Eff.writeStaging (versionLine v) :: (runAux v cs rest false).1,
       (runAux v cs rest false).2) := by
  simp only [runAux, h, if_true]
  rw [if_neg (versionLine_ne_openMarker v)]

theorem runAux_cons_open (v : List Char) (cs : List (List Char))
    (rest : List (List Char)) :
    runAux v cs (openMarker :: rest) false =
      (Eff.writeStaging openMarker :: (runAux v cs rest true).1,
       (runAux v cs rest true).2) := by
  simp only [runAux, lpre_verMarker_openMarker, Bool.false_eq_true, if_false]
  rw [if_pos trivial]

theorem runAux_cons_plain (v : List Char) (cs : List (List Char))
    (line : List Char) (rest : List (List Char))
    (h1 : lpre verMarker line = false) (h2 : line ≠ openMarker) :
    runAux v cs (line :: rest) false =
      (Eff.writeStaging line :: (runAux v cs rest false).1,
       (runAux v cs rest false).2) := by
  simp only [runAux, h1, Bool.false_eq_true, if_false]
  rw [if_neg h2]

/-- The loop completes in the action model exactly when the pure
transformation succeeds. -/
theorem runAux_ok (v : List Char) (cs : List (List Char)) :
    ∀ (A : List (List Char)) (b : Bool),
      (runAux v cs A b).2 = (trAux v cs A b).isSome := by
  intro A
  induction A with
  | nil => intro b; cases b <;> rfl
  | cons line rest ih =>
    intro b
    cases b with
    | true =>
      by_cases hc : line = closeMarker
      · subst hc
        rw [runAux_cons_close, trAux_cons_close]
        show (runAux v cs rest false).2 = _
        rw [ih false]
        cases hr : trAux v cs rest false <;> rfl
      · have ht : trAux v cs (line :: rest) true = trAux v cs rest true := by
          simp only [trAux]
          rw [if_neg hc]
        rw [runAux_cons_skipped v cs line rest hc, ht]
        exact ih true
    | false =>
      cases hv : lpre verMarker line with
      | true =>
        rw [runAux_cons_ver v cs line rest hv, trAux_cons_ver v cs line rest hv]
        show (runAux v cs rest false).2 = _
        rw [ih false]
        cases hr : trAux v cs rest false <;> rfl
      | false =>
        by_cases hop : line = openMarker
        · subst hop
          rw [runAux_cons_open, trAux_cons_open]
          show (runAux v cs rest true).2 = _
          rw [ih true]
          cases hr : trAux v cs rest true <;> rfl
        · rw [runAux_cons_plain v cs line rest hv hop,
            trAux_cons_plain v cs line rest hv hop]
          show (runAux v cs rest false).2 = _
          rw [ih false]
          cases hr : trAux v cs rest false <;> rfl

/-- The loop emits only staging writes: the copy over `lib.rs` is not
among its actions. -/
theorem runAux_writes (v : List Char) (cs : List (List Char)) :
    ∀ (A : List (List Char)) (b : Bool) (a : Eff),
      a ∈ (runAux v cs A b).1 → ∃ l, a = Eff.writeStaging l := by
  intro A
  induction A with
  | nil =>
    intro b a h
    cases b <;> simp [runAux] at h
  | cons line rest ih =>
    intro b a h
    cases b with
    | true =>
      by_cases hc : line = closeMarker
      · subst hc
        rw [runAux_cons_close] at h
        rcases List.mem_append.mp h with h1 | h1
        · obtain ⟨l, -, hl⟩ := List.mem_map.mp h1
          exact ⟨l, hl.symm⟩
        · rcases List.mem_cons.mp h1 with h2 | h2
          · exact ⟨closeMarker, h2⟩
          · exact ih false a h2
      · rw [runAux_cons_skipped v cs line rest hc] at h
        exact ih true a h
    | false =>
      cases hv : lpre verMarker line with
      | true =>
        rw [runAux_cons_ver v cs line rest hv] at h
        rcases List.mem_cons.mp h with h1 | h1
        · exact ⟨versionLine v, h1⟩
        · exact ih false a h1
      | false =>
        by_cases hop : line = openMarker
        · subst hop
          rw [runAux_cons_open] at h
          rcases List.mem_cons.mp h with h1 | h1
          · exact ⟨openMarker, h1⟩
          · exact ih true a h1
        · rw [runAux_cons_plain v cs line rest hv hop] at h
          rcases List.mem_cons.mp h with h1 | h1
          · exact ⟨line, h1⟩
          · exact ih false a h1

/-- Folding staging writes never touches `lib.rs`. -/
theorem foldl_writes :
    ∀ (acts : List Eff) (fs : FS),
      (∀ a ∈ acts, ∃ l, a = Eff.writeStaging l) →
      (acts.foldl applyAct fs).libRs = fs.libRs := by
  intro acts
  induction acts with
  | nil => intro fs _; rfl
  | cons a as ih =>
    intro fs h
    obtain ⟨l, hl⟩ := h a (List.mem_cons_self a as)
    subst hl
    show (as.foldl applyAct (applyAct fs (Eff.writeStaging l))).libRs = fs.libRs
    rw [ih _ (fun b hb => h b (List.mem_cons_of_mem _ hb))]
    rfl

/-! ### Helper lemmas: sanitization -/

theorem not_mem_replOne {ch p : Char} {rep : List Char} (hrep : ch ∉ rep) :
    ∀ {s : List Char}, ch ∉ s → ch ∉ replOne p rep s := by
  intro s
  induction s with
  | nil => intro _ h; exact List.not_mem_nil ch h
  | cons x xs ih =>
    intro hs hmem
    have hx : ch ≠ x := fun e => hs (e ▸ List.mem_cons_self x xs)
    have hxs : ch ∉ xs := fun m => hs (List.mem_cons_of_mem x m)
    by_cases hp : (x == p) = true
    · rw [show replOne p rep (x :: xs) = rep ++ replOne p rep xs from by
          show (if (x == p) = true then rep ++ replOne p rep xs
            else x :: replOne p rep xs) = rep ++ replOne p rep xs
          exact if_pos hp] at hmem
      rcases List.mem_append.mp hmem with h1 | h1
      · exact hrep h1
      · exact ih hxs h1
    · rw [show replOne p rep (x :: xs) = x :: replOne p rep xs from by
          show (if (x == p) = true then rep ++ replOne p rep xs
            else x :: replOne p rep xs) = x :: replOne p rep xs
          exact if_neg hp] at hmem
      rcases List.mem_cons.mp hmem with h1 | h1
      · exact hx h1
      · exact ih hxs h1

theorem not_mem_replOne_self (p : Char) :
    ∀ (s : List Char), p ∉ replOne p [] s := by
  intro s
  induction s with
  | nil => intro h; exact List.not_mem_nil p h
  | cons x xs ih =>
    by_cases hp : (x == p) = true
    · rw [show replOne p [] (x :: xs) = [] ++ replOne p [] xs from by
        show (if (x == p) = true then [] ++ replOne p [] xs
          else x :: replOne p [] xs) = [] ++ replOne p [] xs
        exact if_pos hp]
      rw [List.nil_append]
      exact ih
    · rw [show replOne p [] (x :: xs) = x :: replOne p [] xs from by
        show (if (x == p) = true then [] ++ replOne p [] xs
          else x :: replOne p [] xs) = x :: replOne p [] xs
        exact if_neg hp]
      intro hmem
      rcases List.mem_cons.mp hmem with h1 | h1
      · rw [h1, beq_self_eq_true] at hp
        exact hp rfl
      · exact ih h1

/-- The hyphen-removal stage deletes every hyphen, and later stages
(apostrophe removal, `sharp`, `plus`) reintroduce none. -/
theorem dash_not_mem_member_name (c : List Char) : '-' ∉ member_name c := by
  unfold member_name
  apply not_mem_replOne (by decide)
  apply not_mem_replOne (by decide)
  apply not_mem_replOne (by simp)
  exact not_mem_replOne_self '-' _

theorem hasDD_tail {x : Char} {l : List Char} (h : hasDD (x :: l) = false) :
    hasDD l = false := by
  match l with
  | [] => rfl
  | y :: ys =>
    have h2 : ((x == ':' && y == ':') || hasDD (y :: ys)) = false := h
    exact (Bool.or_eq_false_iff.mp h2).2

theorem hasDD_cons_spc {l : List Char} (h : hasDD l = false) :
    hasDD (spc :: l) = false := by
  match l with
  | [] => rfl
  | y :: ys =>
    show ((spc == ':' && y == ':') || hasDD (y :: ys)) = false
    rw [show (spc == ':') = false from by decide, Bool.false_and, Bool.false_or]
    exact h

theorem hasDD_insert_spc :
    ∀ (l1 l2 : List Char), hasDD (l1 ++ l2) = false →
      hasDD (l1 ++ spc :: l2) = false := by
  intro l1
  induction l1 with
  | nil =>
    intro l2 h
    exact hasDD_cons_spc h
  | cons x xs ih =>
    intro l2 h
    cases xs with
    | nil =>
      show hasDD (x :: spc :: l2) = false
      rw [show hasDD (x :: spc :: l2) =
            ((x == ':' && spc == ':') || hasDD (spc :: l2)) from rfl,
        show (spc == ':') = false from by decide, Bool.and_false, Bool.false_or]
      exact hasDD_cons_spc (hasDD_tail (h : hasDD (x :: l2) = false))
    | cons y ys =>
      show hasDD (x :: y :: (ys ++ spc :: l2)) = false
      have h2 : ((x == ':' && y == ':') || hasDD (y :: (ys ++ l2))) = false := h
      obtain ⟨ha, hb⟩ := Bool.or_eq_false_iff.mp h2
      show ((x == ':' && y == ':') || hasDD (y :: (ys ++ spc :: l2))) = false
      rw [ha, Bool.false_or]
      exact ih l2 hb

theorem replTwo_colons_id (rep : List Char) :
    ∀ s : List Char, hasDD s = false → replTwo ':' ':' rep s = s := by
  intro s
  induction s with
  | nil => intro _; rfl
  | cons x xs ih =>
    intro h
    cases xs with
    | nil => rfl
    | cons y ys =>
      have h2 : ((x == ':' && y == ':') || hasDD (y :: ys)) = false := h
      obtain ⟨ha, hb⟩ := Bool.or_eq_false_iff.mp h2
      show (if (x == ':' && y == ':') = true then rep ++ replTwo ':' ':' rep ys
        else x :: replTwo ':' ':' rep (y :: ys)) = x :: y :: ys
      rw [ha]
      rw [if_neg (by intro e; exact Bool.false_ne_true e)]
      rw [ih hb]

theorem replOne_append (p : Char) (rep : List Char) :
    ∀ a b : List Char,
      replOne p rep (a ++ b) = replOne p rep a ++ replOne p rep b := by
  intro a
  induction a with
  | nil => intro b; rfl
  | cons x xs ih =>
    intro b
    by_cases hp : (x == p) = true
    · show (if (x == p) = true then rep ++ replOne p rep (xs ++ b)
        else x :: replOne p rep (xs ++ b)) =
        (if (x == p) = true then rep ++ replOne p rep xs
        else x :: replOne p rep xs) ++ replOne p rep b
      rw [if_pos hp, if_pos hp, ih b, List.append_assoc]
    · show (if (x == p) = true then rep ++ replOne p rep (xs ++ b)
        else x :: replOne p rep (xs ++ b)) =
        (if (x == p) = true then rep ++ replOne p rep xs
        else x :: replOne p rep xs) ++ replOne p rep b
      rw [if_neg hp, if_neg hp, ih b, List.cons_append]

/-- Inserting one space commutes away across the dot-replacement stage and
vanishes at the space-removal stage. -/
theorem insert_spc_stages (c1 c2 : List Char) :
    replOne spc [] (replOne '.' ['_'] (c1 ++ spc :: c2)) =
      replOne spc [] (replOne '.' ['_'] (c1 ++ c2)) := by
  have hdot : replOne '.' ['_'] (c1 ++ spc :: c2) =
      replOne '.' ['_'] c1 ++ spc :: replOne '.' ['_'] c2 := by
    rw [show c1 ++ spc :: c2 = c1 ++ ([spc] ++ c2) from rfl,
      replOne_append, replOne_append,
      show replOne '.' ['_'] [spc] = [spc] from by decide]
    rfl
  have hspc : replOne spc []
      (replOne '.' ['_'] c1 ++ spc :: replOne '.' ['_'] c2) =
      replOne spc [] (replOne '.' ['_'] c1) ++
        replOne spc [] (replOne '.' ['_'] c2) := by
    rw [show replOne '.' ['_'] c1 ++ spc :: replOne '.' ['_'] c2 =
          replOne '.' ['_'] c1 ++ ([spc] ++ replOne '.' ['_'] c2) from rfl,
      replOne_append, replOne_append,
      show replOne spc [] [spc] = ([] : List Char) from by decide,
      List.nil_append]
  rw [hdot, hspc, replOne_append, replOne_append]

/-- Inserting one space anywhere into a classifier without consecutive
colons does not change its sanitized member name. -/
theorem member_name_insert_spc (c : List Char) (i : Nat)
    (h : hasDD c = false) :
    member_name (c.take i ++ spc :: c.drop i) = member_name c := by
  have hins : hasDD (c.take i ++ spc :: c.drop i) = false := by
    apply hasDD_insert_spc
    rw [List.take_append_drop]
    exact h
  unfold member_name
  rw [replTwo_colons_id _ _ hins, replTwo_colons_id _ _ h,
    insert_spc_stages (c.take i) (c.drop i), List.take_append_drop]

/-- The annotation line carries the classifier verbatim: stripping its
fixed prefix and suffix returns the classifier. -/
theorem quotedValue_annotLine (c : List Char) :
    quotedValue (annotLine c) = some c := by
  unfold quotedValue annotLine
  rw [if_pos (lpre_append annPre (c ++ annSuf))]
  have hdrop : (annPre ++ (c ++ annSuf)).drop annPre.length = c ++ annSuf :=
    List.drop_left annPre (c ++ annSuf)
  rw [hdrop]
  have hsuf : lsuf annSuf (c ++ annSuf) = true := by
    unfold lsuf
    rw [List.reverse_append]
    exact lpre_append _ _
  rw [if_pos hsuf]
  have hlen : (c ++ annSuf).length - annSuf.length = c.length := by
    rw [List.length_append]
    omega
  rw [hlen, List.take_left]

/-! ### Claims -/

/-- C1: on the concrete template with the `0.0.0` version line and an
empty `pub enum Classifier` block, running the transformation with
taxonomy version `2024.1` and the two classifiers
`Topic :: Software Development` and `License :: OSI Approved` rewrites
the version line with `2024.1` and produces exactly two member entries,
in that order, named `Topic__SoftwareDevelopment` and
`License__OSIApproved`. -/
theorem claim_C1_concrete_scenario :
    transform ("2024.1".toList)
      ["Topic :: Software Development".toList,
       "License :: OSI Approved".toList]
      ["pub const PYPA_VERSION: &str = \"0.0.0\";\n".toList,
       "pub enum Classifier \x7b\n".toList,
       "\x7d\n".toList] =
    some ["pub const PYPA_VERSION: &str = \"2024.1\";\n".toList,
          "pub enum Classifier \x7b\n".toList,
          "    #[strum(serialize = \"Topic :: Software Development\")]\n".toList,
          "    Topic__SoftwareDevelopment,\n".toList,
          "    #[strum(serialize = \"License :: OSI Approved\")]\n".toList,
          "    License__OSIApproved,\n".toList,
          "\x7d\n".toList] := by decide

/-- C2: when the transformation fails (`MalformedTemplate`: opening
marker without a later closing marker), the run leaves `lib.rs` exactly
as it was — the commit step never executes, all writes land in the
staging file. -/
theorem claim_C2_atomic_failure (v : List Char) (cs : List (List Char))
    (fs : FS) (h : transform v cs fs.libRs = none) :
    (run v cs fs).libRs = fs.libRs := by
  have h2 : trAux v cs fs.libRs false = none := h
  have hok : (runAux v cs fs.libRs false).2 = false := by
    rw [runAux_ok, h2]
    rfl
  show ((if (runAux v cs fs.libRs false).2 = true
      then (runAux v cs fs.libRs false).1 ++ [Eff.commit]
      else (runAux v cs fs.libRs false).1).foldl applyAct
      { fs with staging := [] }).libRs = fs.libRs
  rw [hok, if_neg (by intro e; exact Bool.false_ne_true e),
    foldl_writes _ _ (fun a ha => runAux_writes v cs fs.libRs false a ha)]

/-- C2 witness: a template with an opening marker and no closing marker
fails, and the run leaves `lib.rs` untouched. -/
theorem claim_C2_witness :
    transform [] [] (FS.mk [openMarker] []).libRs = none ∧
    (run [] [] (FS.mk [openMarker] [])).libRs = [openMarker] :=
  ⟨by decide, claim_C2_atomic_failure [] [] (FS.mk [openMarker] []) (by decide)⟩

/-- C3: every input line outside the Version Line and the Enumeration
Block appears in the output unchanged and in the same relative order
(the outside lines form a sublist of the output). -/
theorem claim_C3_region_isolation (v : List Char) (cs : List (List Char))
    (A B : List (List Char)) (h : transform v cs A = some B) :
    List.Sublist (outsideLines A) B :=
  outside_sublist v cs A false B h

/-- C3 witness on a concrete artifact with lines before and after the
block. -/
theorem claim_C3_witness :
    List.Sublist
      (outsideLines
        ["use strum;\n".toList,
         "pub enum Classifier \x7b\n".toList,
         "    old,\n".toList,
         "\x7d\n".toList,
         "fn main\n".toList])
      ["use strum;\n".toList,
       "pub enum Classifier \x7b\n".toList,
       "\x7d\n".toList,
       "fn main\n".toList] :=
  claim_C3_region_isolation ("1".toList) []
    ["use strum;\n".toList,
     "pub enum Classifier \x7b\n".toList,
     "    old,\n".toList,
     "\x7d\n".toList,
     "fn main\n".toList]
    ["use strum;\n".toList,
     "pub enum Classifier \x7b\n".toList,
     "\x7d\n".toList,
     "fn main\n".toList]
    (by decide)

/-- C4 counterexample: the claim that inserting a single space never
changes the sanitized name is false on the code: `a: :b` is `a::b` with
one space inserted at position 2, yet the two sanitized names differ
(the space defeats the `::`→`__` replacement, which runs before space
removal). -/
theorem claim_C4_counterexample :
    "a: :b".toList = "a::b".toList.take 2 ++ spc :: "a::b".toList.drop 2 ∧
    member_name ("a: :b".toList) ≠ member_name ("a::b".toList) := by decide

/-- C4 (amended): for classifier strings with no two consecutive colons,
inserting a single space at any position leaves the sanitized member
name unchanged. -/
theorem claim_C4_amended (c : List Char) (i : Nat) (h : hasDD c = false) :
    member_name (c.take i ++ spc :: c.drop i) = member_name c :=
  member_name_insert_spc c i h

/-- C4 witness: inserting a space into `Programming Language` (which has
no consecutive colons) does not change the member name. -/
theorem claim_C4_witness :
    hasDD ("Programming Language".toList) = false ∧
    member_name (("Programming Language".toList).take 11 ++
        spc :: ("Programming Language".toList).drop 11) =
      member_name ("Programming Language".toList) :=
  ⟨by decide, claim_C4_amended ("Programming Language".toList) 11 (by decide)⟩

/-- C5: the transformation is idempotent — transforming an output again
with the same version and classifiers reproduces it byte for byte. -/
theorem claim_C5_idempotence (v : List Char) (cs : List (List Char))
    (A B : List (List Char)) (h : transform v cs A = some B) :
    transform v cs B = some B :=
  idem_aux v cs A.length A B (Nat.le_refl _) h

/-- C5 witness on a concrete artifact. -/
theorem claim_C5_witness :
    transform ("2".toList) ["X".toList]
      ["pub const PYPA_VERSION: &str = \"2\";\n".toList,
       "pub enum Classifier \x7b\n".toList,
       "    #[strum(serialize = \"X\")]\n".toList,
       "    X,\n".toList,
       "\x7d\n".toList] =
    some ["pub const PYPA_VERSION: &str = \"2\";\n".toList,
          "pub enum Classifier \x7b\n".toList,
          "    #[strum(serialize = \"X\")]\n".toList,
          "    X,\n".toList,
          "\x7d\n".toList] :=
  claim_C5_idempotence ("2".toList) ["X".toList]
    ["pub const PYPA_VERSION: &str = \"0\";\n".toList,
     "pub enum Classifier \x7b\n".toList,
     "old\n".toList,
     "\x7d\n".toList]
    ["pub const PYPA_VERSION: &str = \"2\";\n".toList,
     "pub enum Classifier \x7b\n".toList,
     "    #[strum(serialize = \"X\")]\n".toList,
     "    X,\n".toList,
     "\x7d\n".toList]
    (by decide)

/-- C6: on the opening marker line, the transformation emits it
unchanged, discards every following input line up to and including the
first closing marker line, emits the generated entries (one per
classifier, in order), and then emits the closing marker line once —
the output is independent of the discarded block body `sk`. -/
theorem claim_C6_block_rebuild (v : List Char) (cs : List (List Char))
    (pre sk rest2 out : List (List Char))
    (hpre : ∀ l ∈ pre, lpre verMarker l = false ∧ l ≠ openMarker)
    (hsk : closeMarker ∉ sk)
    (hr : transform v cs rest2 = some out) :
    transform v cs (pre ++ openMarker :: (sk ++ closeMarker :: rest2)) =
      some (pre ++ openMarker :: (entries cs ++ closeMarker :: out)) :=
  trans_block v cs hpre hsk hr

/-- C6 witness: a concrete block with an old body that is discarded. -/
theorem claim_C6_witness :
    transform ("1".toList) ["A".toList]
      (["use x;\n".toList] ++ openMarker ::
        (["    old,\n".toList] ++ closeMarker :: ["tail\n".toList])) =
      some (["use x;\n".toList] ++ openMarker ::
        (entries ["A".toList] ++ closeMarker :: ["tail\n".toList])) :=
  claim_C6_block_rebuild ("1".toList) ["A".toList]
    ["use x;\n".toList] ["    old,\n".toList] ["tail\n".toList]
    ["tail\n".toList]
    (by decide) (by decide) (by decide)

/-- C7: the transformation fails if and only if the input contains an
occurrence of the opening marker line with no closing marker line after
it; on all other inputs it completes with an output. -/
theorem claim_C7_failure_iff (v : List Char) (cs : List (List Char))
    (A : List (List Char)) :
    transform v cs A = none ↔ unterminatedOpen A :=
  trans_none_iff v cs A.length A (Nat.le_refl _)

/-- C8: the member entries emitted into the rebuilt block are exactly one
annotation line and one declaration line per supplied classifier, in the
supplied order, with none added or dropped. -/
theorem claim_C8_order_preservation (v : List Char) (cs : List (List Char))
    (pre sk rest2 out : List (List Char))
    (hpre : ∀ l ∈ pre, lpre verMarker l = false ∧ l ≠ openMarker)
    (hsk : closeMarker ∉ sk)
    (hr : transform v cs rest2 = some out) :
    ∃ es, transform v cs (pre ++ openMarker :: (sk ++ closeMarker :: rest2)) =
        some (pre ++ openMarker :: (es ++ closeMarker :: out)) ∧
      es.length = 2 * cs.length ∧
      ∀ (i : Nat) (h : i < cs.length),
        es.get? (2 * i) = some (annotLine (cs.get ⟨i, h⟩)) ∧
        es.get? (2 * i + 1) = some (memberLine (cs.get ⟨i, h⟩)) :=
  ⟨entries cs, trans_block v cs hpre hsk hr, entries_length cs, entries_get cs⟩

/-- C8 witness at two concrete classifiers. -/
theorem claim_C8_witness :
    ∃ es, transform ("1".toList) ["A".toList, "B".toList]
        ([] ++ openMarker :: ([] ++ closeMarker :: [])) =
        some ([] ++ openMarker :: (es ++ closeMarker :: [])) ∧
      es.length = 2 * (["A".toList, "B".toList] : List (List Char)).length ∧
      ∀ (i : Nat) (h : i < (["A".toList, "B".toList] : List (List Char)).length),
        es.get? (2 * i) =
          some (annotLine ((["A".toList, "B".toList] : List (List Char)).get ⟨i, h⟩)) ∧
        es.get? (2 * i + 1) =
          some (memberLine ((["A".toList, "B".toList] : List (List Char)).get ⟨i, h⟩)) :=
  claim_C8_order_preservation ("1".toList) ["A".toList, "B".toList]
    [] [] [] [] (by simp) (by simp) (by decide)

/-- C9: each supplied classifier appears verbatim as the quoted value of
an annotation line of the output: the annotation line for `c` is in the
output and stripping its fixed prefix and suffix returns exactly `c`. -/
theorem claim_C9_serialization_roundtrip (v : List Char)
    (cs : List (List Char)) (pre sk rest2 out B : List (List Char))
    (hpre : ∀ l ∈ pre, lpre verMarker l = false ∧ l ≠ openMarker)
    (hsk : closeMarker ∉ sk)
    (hr : transform v cs rest2 = some out)
    (hB : transform v cs (pre ++ openMarker :: (sk ++ closeMarker :: rest2)) =
      some B) :
    ∀ c ∈ cs, annotLine c ∈ B ∧ quotedValue (annotLine c) = some c := by
  intro c hc
  have he := trans_block v cs hpre hsk hr
  have hB2 : trAux v cs (pre ++ openMarker :: (sk ++ closeMarker :: rest2)) false =
      some B := hB
  rw [he] at hB2
  have hBe : pre ++ openMarker :: (entries cs ++ closeMarker :: out) = B :=
    Option.some.inj hB2
  constructor
  · rw [← hBe]
    exact List.mem_append_right pre
      (List.mem_cons_of_mem openMarker
        (List.mem_append_left _ (annotLine_mem_entries hc)))
  · exact quotedValue_annotLine c

/-- C9 witness at a concrete classifier. -/
theorem claim_C9_witness :
    annotLine ("Topic :: Games".toList) ∈
      (openMarker :: (entries ["Topic :: Games".toList] ++ closeMarker :: [])) ∧
    quotedValue (annotLine ("Topic :: Games".toList)) =
      some ("Topic :: Games".toList) :=
  claim_C9_serialization_roundtrip ("1".toList) ["Topic :: Games".toList]
    [] [] [] []
    (openMarker :: (entries ["Topic :: Games".toList] ++ closeMarker :: []))
    (by simp) (by simp) (by decide) (by decide)
    ("Topic :: Games".toList) (List.mem_cons_self _ _)

/-- C10: the sanitization deletes every hyphen (a stage the spec's
replacement table omits), placed after slash removal and before
apostrophe removal in the chain; `Zero-Clause` becomes `ZeroClause`, and
no member name ever contains a hyphen. -/
theorem claim_C10_hyphen_deleted :
    member_name
        ("License :: OSI Approved :: BSD Zero-Clause License (0BSD)".toList) =
      "License__OSIApproved__BSDZeroClauseLicense0BSD".toList ∧
    ∀ c : List Char, '-' ∉ member_name c :=
  ⟨by decide, dash_not_mem_member_name⟩
